import Mathlib

/-!
Verification of the 1-bit bitmap packing core of the plantagochi server.

The repository contains two variants of the same byte-packing loop:

* `generateQrCArray` in src/test/get_one_bit_bitmap_from_qr_code_from_url.js
  (lines 30-44): per row an MSB-first accumulator byte, pushed whenever
  `x % 8 === 7`, and pushed once more after the row when `width % 8 !== 0`;
* `generateQrHexString` in src/unnamed/part_001 (lines 262-282): the same
  accumulator, pushed whenever `x % 8 === 7 || x === width - 1`.

Both read greyscale samples from a row-major buffer `data` at index
`y * width + x` and set a bit exactly when the sample is strictly equal to 0.
The embeddings below translate those loops directly; the pixel buffer is a
`List Nat`, and the JavaScript out-of-bounds read `data[i] === undefined`
(never strictly equal to 0) is modelled by an `Option` lookup.
-/

namespace Plantagochi

/-- Number of bytes used for one packed row: ceil(width / 8). -/
def rowLen (width : Nat) : Nat := (width + 7) / 8

/-- The foreground test of both packing loops: the JavaScript expression
`data[i] === 0`. An out-of-range index yields `undefined` in JavaScript,
which is not strictly equal to `0`, hence the `Option` comparison. -/
def isFg (data : List Nat) (i : Nat) : Bool := data[i]? == some 0

/-- The pixel predicate of row `y` of a row-major sample buffer: the test
`data[y * width + x] === 0` applied by both loops. -/
def rowFg (data : List Nat) (w y : Nat) : Nat → Bool := fun x => isFg data (y * w + x)

/-- One iteration of the inner `x` loop of `generateQrCArray`: OR the bit
`1 << (7 - x % 8)` into the accumulator when the pixel is foreground, and
push the accumulator (resetting it to 0) when `x % 8 === 7`. The state is
the pair (bytes pushed so far, current accumulator byte). -/
def packStep (p : Nat → Bool) (st : List Nat × Nat) (x : Nat) : List Nat × Nat :=
  let byte := if p x then st.2 ||| (1 <<< (7 - x % 8)) else st.2
  if x % 8 == 7 then (st.1 ++ [byte], 0) else (st.1, byte)

/-- The inner `x` loop of `generateQrCArray` over one row, starting from the
bytes pushed by the previous rows and a fresh accumulator (`let byte = 0`). -/
def packRow (p : Nat → Bool) (w : Nat) (bytes : List Nat) : List Nat × Nat :=
  (List.range w).foldl (packStep p) (bytes, 0)

/-- The byte-packing loop of `generateQrCArray`
(src/test/get_one_bit_bitmap_from_qr_code_from_url.js, lines 30-44):
rows top to bottom; within a row an MSB-first accumulator byte, pushed
whenever `x % 8 === 7`, and pushed once more after the row when
`width % 8 !== 0`. -/
def generateQrCArrayBytes (data : List Nat) (width height : Nat) : List Nat :=
  (List.range height).foldl (fun bytes y =>
    let st := packRow (rowFg data width y) width bytes
    if width % 8 != 0 then st.1 ++ [st.2] else st.1) []

/-- One iteration of the inner `x` loop of `generateQrHexString`: identical
to `packStep` except that the accumulator is also pushed at the end of the
row, on `x % 8 === 7 || x === width - 1`. -/
def packStepHex (p : Nat → Bool) (w : Nat) (st : List Nat × Nat) (x : Nat) : List Nat × Nat :=
  let byte := if p x then st.2 ||| (1 <<< (7 - x % 8)) else st.2
  if x % 8 == 7 || x == w - 1 then (st.1 ++ [byte], 0) else (st.1, byte)

/-- The inner `x` loop of `generateQrHexString` over one row. -/
def packRowHex (p : Nat → Bool) (w : Nat) (bytes : List Nat) : List Nat × Nat :=
  (List.range w).foldl (packStepHex p w) (bytes, 0)

/-- The byte-packing loop of `generateQrHexString`
(src/unnamed/part_001, lines 262-282): same accumulator as
`generateQrCArrayBytes`, but pushed whenever `x % 8 === 7 || x === width - 1`.
The commented-out block after the loop in the source is dead code and
contributes nothing, so no trailing push happens outside the loop. -/
def generateQrHexStringBytes (data : List Nat) (width height : Nat) : List Nat :=
  (List.range height).foldl (fun bytes y =>
    (packRowHex (rowFg data width y) width bytes).1) []

/-- One packed byte: the bits of pixels `8*j .. 8*j+r-1` of a row under the
pixel predicate `p`, most-significant bit first. -/
def rowByte (p : Nat → Bool) (j r : Nat) : Nat :=
  (List.range r).foldl (fun b k => if p (8 * j + k) then b ||| (1 <<< (7 - k)) else b) 0

/-- The packed bytes of one row of width `w` under pixel predicate `p`:
byte `j` covers pixels `8*j .. min (8*j+7) (w-1)`. -/
def rowBytes (p : Nat → Bool) (w : Nat) : List Nat :=
  (List.range (rowLen w)).map (fun j => rowByte p j (min 8 (w - 8 * j)))

/-- Bytewise description of the encoder: each row packed independently into
`rowLen w` bytes, rows concatenated top to bottom. -/
def encodeSpec (data : List Nat) (w h : Nat) : List Nat :=
  ((List.range h).map (fun y => rowBytes (rowFg data w y) w)).flatten

/-- Modelled from the spec: decoding a PackedBitmap back into a PixelGrid,
a set bit at (y, x) giving the foreground sample 0 and a clear bit giving
the background sample 255 (the two values a thresholded image takes).
The repository contains no decoder; this follows the round-trip wording of
section 8 of the spec. -/
def decodeBitmap (bytes : List Nat) (w h : Nat) : List Nat :=
  (List.range (h * w)).map (fun i =>
    if ((bytes[(i / w) * rowLen w + (i % w) / 8]?).getD 0).testBit (7 - (i % w) % 8)
    then 0 else 255)

/-- The JavaScript expression `b.toString(16).padStart(2, "0")`: lowercase
hexadecimal digits of b, left-padded with a zero to at least two characters. -/
def jsHexByte (b : Nat) : String :=
  let s := (Nat.toDigits 16 b).asString
  if s.length < 2 then "0" ++ s else s

/-- The header emitter of `generateQrCArray`
(src/test/get_one_bit_bitmap_from_qr_code_from_url.js, lines 47-55): a
`#define` line for the width and one for the height, the array declaration,
then per byte a `0xHH` token and `", "`, with a newline appended after every
12th token, and finally the closing `"};"` and newline. -/
def generateQrCArrayHeader (varName : String) (width height : Nat) (bytes : List Nat) : String :=
  let cArray := "#define " ++ varName ++ "_width " ++ toString width ++ "\n"
      ++ "#define " ++ varName ++ "_height " ++ toString height ++ "\n"
      ++ "static const unsigned char " ++ varName ++ "[] PROGMEM = \x7b\n"
  let cArray := bytes.enum.foldl (fun s ib =>
      let s2 := s ++ "0x" ++ jsHexByte ib.2 ++ ", "
      if (ib.1 + 1) % 12 == 0 then s2 ++ "\n" else s2) cArray
  cArray ++ "\x7d;\n"

/-- One emitted token of the byte list: the hex literal, the comma and
space, and the line break following every 12th token. -/
def headerToken (i b : Nat) : String :=
  "0x" ++ jsHexByte b ++ ", " ++ (if (i + 1) % 12 == 0 then "\n" else "")

/-- The emitted token block for an indexed byte list. -/
def headerBody : List (Nat × Nat) → String
  | [] => ""
  | ib :: rest => headerToken ib.1 ib.2 ++ headerBody rest

/-- Whether `pat` occurs as a contiguous block at the front of `s`. -/
def matchesAt : List Char → List Char → Bool
  | [], _ => true
  | _ :: _, [] => false
  | a :: ps, b :: ss => a == b && matchesAt ps ss

/-- The number of positions of `s` at which `pat` occurs as a contiguous
substring. -/
def countSub (pat s : List Char) : Nat :=
  ((List.range (s.length + 1)).filter (fun i => matchesAt pat (s.drop i))).length

example : generateQrCArrayBytes [0, 255, 255, 255, 255, 255, 255, 255] 8 1 = [128] := by decide
example : generateQrCArrayBytes [0, 0, 0, 0, 0] 5 1 = [248] := by decide
example : generateQrHexStringBytes [0, 0, 0, 0, 0] 5 1 = [248] := by decide
example : encodeSpec [0, 0, 0, 0, 0] 5 1 = [248] := by decide
example : generateQrCArrayBytes [0, 255, 0] 3 2 = [160, 0] := by decide
example : generateQrHexStringBytes [0, 255, 0] 3 2 = [160, 0] := by decide
example : encodeSpec [0, 255, 0] 3 2 = [160, 0] := by decide

theorem rowByte_zero (p : Nat → Bool) (j : Nat) : rowByte p j 0 = 0 := rfl

theorem rowByte_succ (p : Nat → Bool) (j r : Nat) :
    rowByte p j (r + 1)
      = if p (8 * j + r) then rowByte p j r ||| (1 <<< (7 - r)) else rowByte p j r := by
  unfold rowByte
  rw [List.range_succ, List.foldl_append]
  rfl

/-- Invariant of the inner loop of `generateQrCArray` after `w` iterations:
the full bytes pushed so far are the `w / 8` complete bytes of the row, and
the accumulator holds the bits of the trailing `w % 8` pixels. -/
theorem packRow_eq (p : Nat → Bool) (bytes : List Nat) :
    ∀ w : Nat, packRow p w bytes
      = (bytes ++ (List.range (w / 8)).map (fun j => rowByte p j 8),
         rowByte p (w / 8) (w % 8)) := by
  intro w
  induction w with
  | zero => simp [packRow, rowByte]
  | succ v ih =>
    unfold packRow at ih ⊢
    rw [List.range_succ, List.foldl_append, ih]
    simp only [List.foldl_cons, List.foldl_nil]
    unfold packStep
    have h8 : 8 * (v / 8) + v % 8 = v := by omega
    have hb : (if p v then rowByte p (v / 8) (v % 8) ||| (1 <<< (7 - v % 8))
        else rowByte p (v / 8) (v % 8)) = rowByte p (v / 8) (v % 8 + 1) := by
      rw [rowByte_succ, h8]
    simp only []
    rw [hb]
    by_cases h7 : v % 8 = 7
    · have hc : (v % 8 == 7) = true := by simp [h7]
      have h1 : (v + 1) / 8 = v / 8 + 1 := by omega
      have h2 : (v + 1) % 8 = 0 := by omega
      rw [hc, if_pos rfl, h1, h2, List.range_succ, List.map_append]
      rw [h7, rowByte_zero]
      simp [List.append_assoc]
    · have hc : (v % 8 == 7) = false := by simp [h7]
      have h1 : (v + 1) / 8 = v / 8 := by omega
      have h2 : (v + 1) % 8 = v % 8 + 1 := by omega
      rw [hc, h1, h2]
      simp

/-- The full bytes of a row under the shape of `rowBytes`: when `w % 8 = 0`
there is no trailing byte and `rowBytes` is exactly the `w / 8` full bytes. -/
theorem rowBytes_of_mod_eq_zero (p : Nat → Bool) (w : Nat) (h : w % 8 = 0) :
    rowBytes p w = (List.range (w / 8)).map (fun j => rowByte p j 8) := by
  unfold rowBytes rowLen
  have hl : (w + 7) / 8 = w / 8 := by omega
  rw [hl]
  apply List.map_congr_left
  intro j hj
  rw [List.mem_range] at hj
  have : min 8 (w - 8 * j) = 8 := by omega
  rw [this]

/-- When `w % 8 ≠ 0`, `rowBytes` is the `w / 8` full bytes followed by the
trailing byte holding the last `w % 8` pixels. -/
theorem rowBytes_of_mod_ne_zero (p : Nat → Bool) (w : Nat) (h : w % 8 ≠ 0) :
    rowBytes p w
      = (List.range (w / 8)).map (fun j => rowByte p j 8)
        ++ [rowByte p (w / 8) (w % 8)] := by
  unfold rowBytes rowLen
  have hl : (w + 7) / 8 = w / 8 + 1 := by omega
  rw [hl, List.range_succ, List.map_append]
  simp only [List.map_cons, List.map_nil]
  have hmin : min 8 (w - 8 * (w / 8)) = w % 8 := by omega
  rw [hmin]
  have hfull : (List.range (w / 8)).map (fun j => rowByte p j (min 8 (w - 8 * j)))
      = (List.range (w / 8)).map (fun j => rowByte p j 8) := by
    apply List.map_congr_left
    intro j hj
    rw [List.mem_range] at hj
    have : min 8 (w - 8 * j) = 8 := by omega
    rw [this]
  rw [hfull]

/-- The body of the `y` loop of `generateQrCArray` appends exactly the
`rowBytes` of the row to the bytes already pushed. -/
theorem packRow_flush (p : Nat → Bool) (bytes : List Nat) (w : Nat) :
    (if w % 8 != 0 then (packRow p w bytes).1 ++ [(packRow p w bytes).2]
     else (packRow p w bytes).1) = bytes ++ rowBytes p w := by
  rw [packRow_eq]
  by_cases h : w % 8 = 0
  · have hc : (w % 8 != 0) = false := by simp [h]
    rw [hc, rowBytes_of_mod_eq_zero p w h]
    simp
  · have hc : (w % 8 != 0) = true := by simp [h]
    rw [hc, rowBytes_of_mod_ne_zero p w h]
    simp [List.append_assoc]

theorem foldl_congr_mem {α β : Type} (f g : β → α → β) :
    ∀ (l : List α) (b : β), (∀ x ∈ l, ∀ st, f st x = g st x) → l.foldl f b = l.foldl g b := by
  intro l
  induction l with
  | nil => intro b _; rfl
  | cons a l ih =>
    intro b hfg
    simp only [List.foldl_cons]
    rw [hfg a (List.mem_cons_self a l) b]
    exact ih (g b a) (fun x hx st => hfg x (List.mem_cons_of_mem a hx) st)

/-- The body of the `y` loop of `generateQrHexString` also appends exactly the
`rowBytes` of the row: the extra push condition `x === width - 1` plays the
role of the trailing push of the other variant. -/
theorem packRowHex_fst (p : Nat → Bool) (bytes : List Nat) (w : Nat) :
    (packRowHex p w bytes).1 = bytes ++ rowBytes p w := by
  cases w with
  | zero => simp [packRowHex, rowBytes, rowLen]
  | succ v =>
    unfold packRowHex
    rw [List.range_succ, List.foldl_append]
    have hcong : (List.range v).foldl (packStepHex p (v + 1)) (bytes, 0)
        = packRow p v bytes := by
      unfold packRow
      apply foldl_congr_mem
      intro x hx st
      rw [List.mem_range] at hx
      unfold packStepHex packStep
      have hxv : (x == v + 1 - 1) = false := by
        simp only [Nat.add_sub_cancel, beq_eq_false_iff_ne]
        omega
      rw [hxv, Bool.or_false]
    rw [hcong, packRow_eq]
    simp only [List.foldl_cons, List.foldl_nil]
    unfold packStepHex
    have h8 : 8 * (v / 8) + v % 8 = v := by omega
    have hb : (if p v then rowByte p (v / 8) (v % 8) ||| (1 <<< (7 - v % 8))
        else rowByte p (v / 8) (v % 8)) = rowByte p (v / 8) (v % 8 + 1) := by
      rw [rowByte_succ, h8]
    simp only []
    rw [hb]
    have hvv : (v == v + 1 - 1) = true := by simp
    rw [hvv, Bool.or_true, if_pos rfl]
    have hrow : rowBytes p (v + 1)
        = (List.range (v / 8)).map (fun j => rowByte p j 8)
          ++ [rowByte p (v / 8) (v % 8 + 1)] := by
      unfold rowBytes rowLen
      have hl : (v + 1 + 7) / 8 = v / 8 + 1 := by omega
      rw [hl, List.range_succ, List.map_append]
      simp only [List.map_cons, List.map_nil]
      have hmin : min 8 (v + 1 - 8 * (v / 8)) = v % 8 + 1 := by omega
      rw [hmin]
      have hfull : (List.range (v / 8)).map (fun j => rowByte p j (min 8 (v + 1 - 8 * j)))
          = (List.range (v / 8)).map (fun j => rowByte p j 8) := by
        apply List.map_congr_left
        intro j hj
        rw [List.mem_range] at hj
        have : min 8 (v + 1 - 8 * j) = 8 := by omega
        rw [this]
      rw [hfull]
    rw [hrow]
    simp [List.append_assoc]

/-- The loop of `generateQrCArray` computes the bytewise description
`encodeSpec`: rows packed independently and concatenated. -/
theorem generateQrCArrayBytes_eq (data : List Nat) (w : Nat) :
    ∀ h : Nat, generateQrCArrayBytes data w h = encodeSpec data w h := by
  intro h
  induction h with
  | zero => rfl
  | succ g ih =>
    unfold generateQrCArrayBytes encodeSpec at ih ⊢
    rw [List.range_succ, List.foldl_append, ih, List.map_append, List.flatten_append]
    simp only [List.foldl_cons, List.foldl_nil, List.map_cons, List.map_nil,
      List.flatten_cons, List.flatten_nil, List.append_nil]
    exact packRow_flush (rowFg data w g) _ w

/-- The loop of `generateQrHexString` computes the same bytewise description. -/
theorem generateQrHexStringBytes_eq (data : List Nat) (w : Nat) :
    ∀ h : Nat, generateQrHexStringBytes data w h = encodeSpec data w h := by
  intro h
  induction h with
  | zero => rfl
  | succ g ih =>
    unfold generateQrHexStringBytes encodeSpec at ih ⊢
    rw [List.range_succ, List.foldl_append, ih, List.map_append, List.flatten_append]
    simp only [List.foldl_cons, List.foldl_nil, List.map_cons, List.map_nil,
      List.flatten_cons, List.flatten_nil, List.append_nil]
    exact packRowHex_fst (rowFg data w g) _ w

theorem rowBytes_length (p : Nat → Bool) (w : Nat) : (rowBytes p w).length = rowLen w := by
  simp [rowBytes]

theorem encodeSpec_length (data : List Nat) (w : Nat) :
    ∀ h : Nat, (encodeSpec data w h).length = h * rowLen w := by
  intro h
  induction h with
  | zero => simp [encodeSpec]
  | succ g ih =>
    unfold encodeSpec at ih ⊢
    rw [List.range_succ, List.map_append, List.flatten_append, List.length_append, ih]
    simp only [List.map_cons, List.map_nil, List.flatten_cons, List.flatten_nil,
      List.append_nil]
    rw [rowBytes_length, Nat.succ_mul]

/-- Byte `j` of row `y` of the encoded output, read at the flat index
`y * rowLen w + j`, is byte `j` of that row's `rowBytes`. -/
theorem encodeSpec_getElem (data : List Nat) (w : Nat) :
    ∀ (h y j : Nat), y < h → j < rowLen w →
      (encodeSpec data w h)[y * rowLen w + j]? = (rowBytes (rowFg data w y) w)[j]? := by
  intro h
  induction h with
  | zero => intro y j hy _; exact absurd hy (Nat.not_lt_zero y)
  | succ g ih =>
    intro y j hy hj
    unfold encodeSpec at ih ⊢
    rw [List.range_succ, List.map_append, List.flatten_append]
    have hlen := encodeSpec_length data w g
    unfold encodeSpec at hlen
    by_cases hyg : y < g
    · rw [List.getElem?_append, hlen]
      have hlt : y * rowLen w + j < g * rowLen w :=
        calc y * rowLen w + j < y * rowLen w + rowLen w := Nat.add_lt_add_left hj _
          _ = (y + 1) * rowLen w := by rw [Nat.add_mul, Nat.one_mul]
          _ ≤ g * rowLen w := Nat.mul_le_mul_right (rowLen w) hyg
      rw [if_pos hlt]
      exact ih y j hyg hj
    · have hyeq : y = g := by omega
      subst hyeq
      rw [List.getElem?_append_right (by rw [hlen]; omega)]
      rw [hlen, Nat.add_sub_cancel_left]
      simp

/-- Bit `7 - k` of a packed byte is the pixel bit of the `k`-th pixel covered
by that byte, and `false` for positions beyond the covered range. -/
theorem testBit_rowByte (p : Nat → Bool) (j : Nat) :
    ∀ r k : Nat, r ≤ 8 → k < 8 →
      (rowByte p j r).testBit (7 - k) = (decide (k < r) && p (8 * j + k)) := by
  intro r
  induction r with
  | zero =>
    intro k _ _
    rw [rowByte_zero, Nat.zero_testBit]
    simp
  | succ s ih =>
    intro k hr hk
    rw [rowByte_succ]
    have hsh : (1 : Nat) <<< (7 - s) = 2 ^ (7 - s) := by
      rw [Nat.shiftLeft_eq, Nat.one_mul]
    by_cases hp : p (8 * j + s)
    · rw [if_pos hp, Nat.testBit_or, ih k (by omega) hk, hsh]
      by_cases hks : k = s
      · subst hks
        rw [Nat.testBit_two_pow_self, Bool.or_true]
        have h1 : decide (k < k + 1) = true := decide_eq_true (Nat.lt_succ_self k)
        rw [h1, Bool.true_and, hp]
      · have h7 : (7 : Nat) - s ≠ 7 - k := by omega
        rw [Nat.testBit_two_pow_of_ne h7, Bool.or_false]
        have hd : decide (k < s) = decide (k < s + 1) := by
          rw [decide_eq_decide]; omega
        rw [hd]
    · rw [if_neg hp, ih k (by omega) hk]
      by_cases hks : k = s
      · subst hks
        have hpf : p (8 * j + k) = false := by
          rw [Bool.eq_false_iff]; exact hp
        rw [hpf, Bool.and_false, Bool.and_false]
      · have hd : decide (k < s) = decide (k < s + 1) := by
          rw [decide_eq_decide]; omega
        rw [hd]

/-- Bit `7 - x % 8` of byte `y * rowLen w + x / 8` of the encoded output is
exactly the foreground test of pixel `(y, x)`. -/
theorem encodeSpec_testBit (data : List Nat) (w h y x : Nat) (hy : y < h) (hx : x < w) :
    (((encodeSpec data w h)[y * rowLen w + x / 8]?).getD 0).testBit (7 - x % 8)
      = isFg data (y * w + x) := by
  have hj : x / 8 < rowLen w := by unfold rowLen; omega
  rw [encodeSpec_getElem data w h y (x / 8) hy hj]
  unfold rowBytes
  rw [List.getElem?_map, List.getElem?_range (by unfold rowLen at hj; exact hj)]
  simp only [Option.map_some', Option.getD_some]
  have hr : min 8 (w - 8 * (x / 8)) ≤ 8 := by omega
  have hk : x % 8 < 8 := by omega
  rw [testBit_rowByte (rowFg data w y) (x / 8) (min 8 (w - 8 * (x / 8))) (x % 8) hr hk]
  have h1 : decide (x % 8 < min 8 (w - 8 * (x / 8))) = true := decide_eq_true (by omega)
  rw [h1, Bool.true_and]
  have hx8 : 8 * (x / 8) + x % 8 = x := by omega
  unfold rowFg
  rw [hx8]

theorem rowByte_congr (p q : Nat → Bool) (j r : Nat)
    (h : ∀ k, k < r → p (8 * j + k) = q (8 * j + k)) :
    rowByte p j r = rowByte q j r := by
  unfold rowByte
  apply foldl_congr_mem
  intro k hk b
  rw [List.mem_range] at hk
  rw [h k hk]

theorem rowBytes_congr (p q : Nat → Bool) (w : Nat) (h : ∀ x, x < w → p x = q x) :
    rowBytes p w = rowBytes q w := by
  unfold rowBytes
  apply List.map_congr_left
  intro j hj
  rw [List.mem_range] at hj
  apply rowByte_congr
  intro k hk
  exact h _ (by omega)

/-- Two sample buffers agreeing on the foreground test of every pixel of the
grid encode identically. -/
theorem encodeSpec_congr (d1 d2 : List Nat) (w h : Nat)
    (hagree : ∀ y x, y < h → x < w → isFg d1 (y * w + x) = isFg d2 (y * w + x)) :
    encodeSpec d1 w h = encodeSpec d2 w h := by
  unfold encodeSpec
  apply congrArg List.flatten
  apply List.map_congr_left
  intro y hy
  rw [List.mem_range] at hy
  apply rowBytes_congr
  intro x hx
  exact hagree y x hy hx

theorem index_lt {y h x w : Nat} (hy : y < h) (hx : x < w) : y * w + x < h * w :=
  calc y * w + x < y * w + w := Nat.add_lt_add_left hx (y * w)
    _ = (y + 1) * w := by rw [Nat.add_mul, Nat.one_mul]
    _ ≤ h * w := Nat.mul_le_mul_right w hy

theorem grid_div {x w : Nat} (y : Nat) (hx : x < w) : (y * w + x) / w = y := by
  rw [Nat.mul_comm, Nat.mul_add_div (by omega : 0 < w), Nat.div_eq_of_lt hx, Nat.add_zero]

theorem grid_mod {x w : Nat} (y : Nat) (hx : x < w) : (y * w + x) % w = x := by
  rw [Nat.mul_comm, Nat.mul_add_mod, Nat.mod_eq_of_lt hx]

/-- C1: for every pixel grid with width W > 0 and height H > 0, the byte
sequence produced by the encoder has length exactly H * ceil(W/8)
(`rowLen W = (W + 7) / 8`), regardless of the pixel values. -/
theorem c1_encode_length (data : List Nat) (w h : Nat) (hw : 0 < w) (hh : 0 < h) :
    (generateQrCArrayBytes data w h).length = h * ((w + 7) / 8) := by
  rw [generateQrCArrayBytes_eq]
  exact encodeSpec_length data w h

theorem c1_encode_length_witness :
    (generateQrCArrayBytes [0, 255, 0] 3 1).length = 1 * ((3 + 7) / 8) :=
  c1_encode_length [0, 255, 0] 3 1 (by decide) (by decide)

/-- C2: the bit encoding pixel (y, x) is stored at byte index
`y * rowLen W + x / 8`, bit position `7 - x % 8` (most-significant bit
first, left to right within a row); in particular, for W = 8, H = 1 with the
single foreground pixel at x = 0, the encoder produces the single byte 0x80. -/
theorem c2_bit_layout :
    (∀ (data : List Nat) (w h y x : Nat), y < h → x < w →
      (((generateQrCArrayBytes data w h)[y * rowLen w + x / 8]?).getD 0).testBit (7 - x % 8)
        = (data[y * w + x]? == some 0))
    ∧ generateQrCArrayBytes [0, 255, 255, 255, 255, 255, 255, 255] 8 1 = [128] := by
  constructor
  · intro data w h y x hy hx
    rw [generateQrCArrayBytes_eq]
    exact encodeSpec_testBit data w h y x hy hx
  · decide

theorem c2_bit_layout_witness :
    (((generateQrCArrayBytes [0, 255, 255, 255, 255, 255, 255, 255] 8 1)[0 * rowLen 8 + 0 / 8]?).getD
        0).testBit (7 - 0 % 8)
      = ([0, 255, 255, 255, 255, 255, 255, 255][0 * 8 + 0]? == some 0) :=
  c2_bit_layout.1 [0, 255, 255, 255, 255, 255, 255, 255] 8 1 0 0 (by decide) (by decide)

/-- C3: an output bit is set iff the corresponding sample value is exactly 0;
every other sample value, including 255, yields a clear bit. -/
theorem c3_foreground_iff :
    ∀ (data : List Nat) (w h y x : Nat), y < h → x < w →
      ((((generateQrCArrayBytes data w h)[y * rowLen w + x / 8]?).getD 0).testBit (7 - x % 8) = true
        ↔ data[y * w + x]? = some 0) := by
  intro data w h y x hy hx
  rw [generateQrCArrayBytes_eq, encodeSpec_testBit data w h y x hy hx]
  simp [isFg]

theorem c3_foreground_iff_witness :
    (((generateQrCArrayBytes [255] 1 1)[0 * rowLen 1 + 0 / 8]?).getD 0).testBit (7 - 0 % 8) = true
      ↔ [255][0 * 1 + 0]? = some 0 :=
  c3_foreground_iff [255] 1 1 0 0 (by decide) (by decide)

/-- C4: every row begins a fresh byte — the output is the concatenation of
the rows encoded independently — the unused low-order bits of a row's final
byte are zero whenever W is not a multiple of 8, and the all-foreground
W = 5, H = 1 grid encodes to the single byte 0xF8. -/
theorem c4_row_alignment_padding :
    (∀ (data : List Nat) (w h : Nat),
      generateQrCArrayBytes data w h
        = ((List.range h).map (fun y => generateQrCArrayBytes (data.drop (y * w)) w 1)).flatten)
    ∧ (∀ (data : List Nat) (w h y i : Nat), y < h → w % 8 ≠ 0 → i < 8 - w % 8 →
      (((generateQrCArrayBytes data w h)[y * rowLen w + w / 8]?).getD 0).testBit i = false)
    ∧ generateQrCArrayBytes [0, 0, 0, 0, 0] 5 1 = [248] := by
  refine ⟨?_, ?_, by decide⟩
  · intro data w h
    rw [generateQrCArrayBytes_eq]
    unfold encodeSpec
    apply congrArg List.flatten
    apply List.map_congr_left
    intro y hy
    rw [List.mem_range] at hy
    rw [generateQrCArrayBytes_eq]
    unfold encodeSpec
    have h1 : List.range 1 = [0] := rfl
    rw [h1]
    simp only [List.map_cons, List.map_nil, List.flatten_cons,
      List.flatten_nil, List.append_nil]
    apply rowBytes_congr
    intro x hx
    simp [rowFg, isFg, List.getElem?_drop]
  · intro data w h y i hy hmod hi
    rw [generateQrCArrayBytes_eq]
    have hj : w / 8 < rowLen w := by unfold rowLen; omega
    rw [encodeSpec_getElem data w h y (w / 8) hy hj]
    unfold rowBytes
    rw [List.getElem?_map, List.getElem?_range (by unfold rowLen at hj; exact hj)]
    simp only [Option.map_some', Option.getD_some]
    have hmin : min 8 (w - 8 * (w / 8)) = w % 8 := by omega
    rw [hmin]
    have hk : 7 - (7 - i) = i := by omega
    rw [← hk, testBit_rowByte _ _ (w % 8) (7 - i) (by omega) (by omega)]
    have hd : decide (7 - i < w % 8) = false := decide_eq_false (by omega)
    rw [hd, Bool.false_and]

theorem c4_row_alignment_padding_witness :
    (((generateQrCArrayBytes [0, 0, 0, 0, 0] 5 1)[0 * rowLen 5 + 5 / 8]?).getD 0).testBit 0
      = false :=
  c4_row_alignment_padding.2.1 [0, 0, 0, 0, 0] 5 1 0 0 (by decide) (by decide) (by decide)

/-- C5: decoding the encoder output back into a pixel grid (set bit to the
foreground sample 0, clear bit to the background sample 255) and re-encoding
the decoded grid reproduces the identical byte sequence. -/
theorem c5_round_trip (data : List Nat) (w h : Nat) (hw : 0 < w) (hh : 0 < h) :
    generateQrCArrayBytes (decodeBitmap (generateQrCArrayBytes data w h) w h) w h
      = generateQrCArrayBytes data w h := by
  have hinner : generateQrCArrayBytes data w h = encodeSpec data w h :=
    generateQrCArrayBytes_eq data w h
  rw [hinner, generateQrCArrayBytes_eq]
  apply encodeSpec_congr
  intro y x hy hx
  unfold isFg decodeBitmap
  rw [List.getElem?_map, List.getElem?_range (index_lt hy hx)]
  simp only [Option.map_some']
  rw [grid_div y hx, grid_mod y hx, encodeSpec_testBit data w h y x hy hx]
  cases hfg : isFg data (y * w + x) with
  | false =>
    unfold isFg at hfg
    rw [hfg]
    decide
  | true =>
    unfold isFg at hfg
    rw [hfg]
    decide

theorem c5_round_trip_witness :
    generateQrCArrayBytes (decodeBitmap (generateQrCArrayBytes [0, 255, 0] 3 1) 3 1) 3 1
      = generateQrCArrayBytes [0, 255, 0] 3 1 :=
  c5_round_trip [0, 255, 0] 3 1 (by decide) (by decide)

/-- C6: two grids of identical dimensions differing only in the pixels of
row r encode to byte sequences agreeing on every byte outside the index
range [r * rowLen W, (r + 1) * rowLen W). -/
theorem c6_row_independence (d1 d2 : List Nat) (w h r : Nat) (hw : 0 < w)
    (hagree : ∀ i : Nat, i / w ≠ r → d1[i]? = d2[i]?) :
    ∀ k : Nat, k < r * rowLen w ∨ (r + 1) * rowLen w ≤ k →
      (generateQrCArrayBytes d1 w h)[k]? = (generateQrCArrayBytes d2 w h)[k]? := by
  intro k hk
  rw [generateQrCArrayBytes_eq, generateQrCArrayBytes_eq]
  have hL : 0 < rowLen w := by unfold rowLen; omega
  by_cases hkh : k < h * rowLen w
  · have hy : k / rowLen w < h := by
      rw [Nat.div_lt_iff_lt_mul hL]; exact hkh
    have hj : k % rowLen w < rowLen w := Nat.mod_lt _ hL
    have hksplit : k = (k / rowLen w) * rowLen w + k % rowLen w := by
      rw [Nat.mul_comm]; exact (Nat.div_add_mod k (rowLen w)).symm
    have hyr : k / rowLen w ≠ r := by
      rcases hk with hk1 | hk2
      · have : k / rowLen w < r := by rw [Nat.div_lt_iff_lt_mul hL]; exact hk1
        omega
      · have : r + 1 ≤ k / rowLen w := by rw [Nat.le_div_iff_mul_le hL]; exact hk2
        omega
    have hrows : rowBytes (rowFg d1 w (k / rowLen w)) w
        = rowBytes (rowFg d2 w (k / rowLen w)) w := by
      apply rowBytes_congr
      intro x hx
      unfold rowFg isFg
      rw [hagree ((k / rowLen w) * w + x) (by rw [grid_div _ hx]; exact hyr)]
    rw [hksplit, encodeSpec_getElem d1 w h _ _ hy hj, encodeSpec_getElem d2 w h _ _ hy hj,
      hrows]
  · have h1 : (encodeSpec d1 w h).length ≤ k := by rw [encodeSpec_length]; omega
    have h2 : (encodeSpec d2 w h).length ≤ k := by rw [encodeSpec_length]; omega
    rw [List.getElem?_eq_none h1, List.getElem?_eq_none h2]

theorem c6_row_independence_witness :
    (generateQrCArrayBytes [0, 255] 1 2)[0]? = (generateQrCArrayBytes [0, 0] 1 2)[0]? :=
  c6_row_independence [0, 255] [0, 0] 1 2 1 (by decide)
    (fun i hi => match i with
      | 0 => rfl
      | 1 => absurd (by decide) hi
      | _ + 2 => rfl)
    0 (Or.inl (by decide))

/-- C7 counterexample: W = 1, H = 1 with an empty sample buffer is malformed
input (the buffer is shorter than W*H = 1), yet both packing loops run to
completion and produce the full-length output [0x00] instead of failing or
reporting anything. -/
theorem c7_counterexample :
    generateQrCArrayBytes [] 1 1 = [0] ∧ generateQrHexStringBytes [] 1 1 = [0] := by
  decide

/-- C7 amended: the encoder does not fail fast on malformed input. A grid
with zero rows or zero columns yields the empty byte sequence, and a sample
buffer shorter than W*H is still processed into the full H * ceil(W/8)
bytes, the missing samples reading as background. -/
theorem c7_no_fail_fast :
    (∀ (data : List Nat) (w : Nat), generateQrCArrayBytes data w 0 = [])
    ∧ (∀ (data : List Nat) (h : Nat), generateQrCArrayBytes data 0 h = [])
    ∧ (∀ (data : List Nat) (w h : Nat), 0 < w → 0 < h → data.length < w * h →
        (generateQrCArrayBytes data w h).length = h * rowLen w) := by
  refine ⟨?_, ?_, ?_⟩
  · intro data w; rfl
  · intro data h
    rw [generateQrCArrayBytes_eq]
    have hlen := encodeSpec_length data 0 h
    have hz : h * rowLen 0 = 0 := by unfold rowLen; omega
    exact List.eq_nil_of_length_eq_zero (by rw [hlen, hz])
  · intro data w h hw hh hshort
    rw [generateQrCArrayBytes_eq]
    exact encodeSpec_length data w h

theorem c7_no_fail_fast_witness :
    (generateQrCArrayBytes ([] : List Nat) 2 1).length = 1 * rowLen 2 :=
  c7_no_fail_fast.2.2 [] 2 1 (by decide) (by decide) (by decide)

/-- C9: the two packing-loop variants of the repository produce identical
byte sequences for every width, height and sample buffer. -/
theorem c9_variants_agree (data : List Nat) (w h : Nat) (hw : 0 < w) (hh : 0 < h) :
    generateQrHexStringBytes data w h = generateQrCArrayBytes data w h := by
  rw [generateQrHexStringBytes_eq, generateQrCArrayBytes_eq]

theorem c9_variants_agree_witness :
    generateQrHexStringBytes [0, 255, 0] 3 2 = generateQrCArrayBytes [0, 255, 0] 3 2 :=
  c9_variants_agree [0, 255, 0] 3 2 (by decide) (by decide)

/-- C10: with a sample buffer shorter than W*H both packing loops still
terminate with exactly H * ceil(W/8) bytes, and every pixel whose sample
lies beyond the end of the buffer reads as background, leaving its bit
clear. -/
theorem c10_short_buffer (data : List Nat) (w h : Nat) (hw : 0 < w) (hh : 0 < h)
    (hshort : data.length < w * h) :
    (generateQrCArrayBytes data w h).length = h * rowLen w
    ∧ (generateQrHexStringBytes data w h).length = h * rowLen w
    ∧ (∀ y x : Nat, y < h → x < w → data.length ≤ y * w + x →
        (((generateQrCArrayBytes data w h)[y * rowLen w + x / 8]?).getD 0).testBit (7 - x % 8)
          = false) := by
  refine ⟨?_, ?_, ?_⟩
  · rw [generateQrCArrayBytes_eq]
    exact encodeSpec_length data w h
  · rw [generateQrHexStringBytes_eq]
    exact encodeSpec_length data w h
  · intro y x hy hx hlen
    rw [generateQrCArrayBytes_eq, encodeSpec_testBit data w h y x hy hx]
    unfold isFg
    rw [List.getElem?_eq_none hlen]
    rfl

theorem c10_short_buffer_witness :
    (generateQrCArrayBytes ([] : List Nat) 1 1).length = 1 * rowLen 1 :=
  (c10_short_buffer [] 1 1 (by decide) (by decide) (by decide)).1

/-- The byte loop of the header emitter appends exactly one `headerToken`
per byte to the text accumulated so far. -/
theorem header_foldl_eq (l : List (Nat × Nat)) :
    ∀ s : String,
      l.foldl (fun s ib =>
          let s2 := s ++ "0x" ++ jsHexByte ib.2 ++ ", "
          if (ib.1 + 1) % 12 == 0 then s2 ++ "\n" else s2) s
        = s ++ headerBody l := by
  induction l with
  | nil =>
    intro s
    rw [List.foldl_nil]
    unfold headerBody
    exact (String.append_empty s).symm
  | cons ib rest ih =>
    intro s
    simp only [List.foldl_cons]
    rw [ih]
    have hcons : headerBody (ib :: rest) = headerToken ib.1 ib.2 ++ headerBody rest := rfl
    rw [hcons]
    unfold headerToken
    by_cases hc : (ib.1 + 1) % 12 = 0
    · have hb : ((ib.1 + 1) % 12 == 0) = true := by simp [hc]
      rw [hb]
      simp [String.append_assoc]
    · have hb : ((ib.1 + 1) % 12 == 0) = false := by simp [hc]
      rw [hb]
      simp [String.append_assoc, String.empty_append]

/-- C8: the emitted header text is the `#define` constant for the supplied
width, the one for the supplied height, the declaration line, the bytes as
0xHH tokens each followed by comma and space with a newline after every 12th
token, and the closing brace; for width 8, height 1 and byte sequence
[0x80], the text contains exactly one 0x80 token and exactly one occurrence
of each matching width and height constant. -/
theorem c8_header_emitter :
    (∀ (varName : String) (width height : Nat) (bytes : List Nat),
      generateQrCArrayHeader varName width height bytes
        = "#define " ++ varName ++ "_width " ++ toString width ++ "\n"
          ++ "#define " ++ varName ++ "_height " ++ toString height ++ "\n"
          ++ "static const unsigned char " ++ varName ++ "[] PROGMEM = \x7b\n"
          ++ headerBody bytes.enum ++ "\x7d;\n")
    ∧ countSub ( "0x80").data (generateQrCArrayHeader "qr_bitmap" 8 1 [128]).data = 1
    ∧ countSub ( "#define qr_bitmap_width 8\n").data
        (generateQrCArrayHeader "qr_bitmap" 8 1 [128]).data = 1
    ∧ countSub ( "#define qr_bitmap_height 1\n").data
        (generateQrCArrayHeader "qr_bitmap" 8 1 [128]).data = 1 := by
  refine ⟨?_, by decide, by decide, by decide⟩
  intro varName width height bytes
  simp only [generateQrCArrayHeader]
  rw [header_foldl_eq]

end Plantagochi
